import Mathlib

/-!
Verification development for the `tracegen` repository: a shallow embedding of
the trace-generation core (`src/tracegen.cc`, `src/2d-tracegen.cc`,
`src/kd-tracegen.cc`, `src/tracegen-utils.h`) together with theorems settling
the specification claims.

Modelling conventions:
* C++ `i64` values are embedded as `ℤ`; `double` values that take part in
  exact comparisons or exact arithmetic (mixing probabilities, popularity
  weights, uniform-real draws) are embedded as `ℚ`.
* Every random draw is supplied by an explicit oracle stream: a sampler call
  is modelled as reading the next element of a stream indexed by the number
  of calls made so far.  `std::discrete_distribution` over a non-empty weight
  table is modelled as an oracle index into the table (the C++ object
  guarantees the index is in range); `std::uniform_int_distribution(lo, hi)`
  is modelled as `lo + u % (hi - lo + 1)` for an arbitrary oracle value `u`,
  which realises exactly the values of `[lo, hi]`;
  `std::uniform_real_distribution(0, 1)` is modelled as an oracle rational in
  `[0, 1)`.
* A C++ `assert` failure or other fatal abort is modelled as `Option.none`;
  undefined behaviour (popping an empty heap, integer division by zero) is
  likewise modelled as `none`.
* `std::make_heap`/`push_heap`/`pop_heap` maintain a binary min-heap (under
  the reversed comparators `tadr_cmp`/`group_tadr_cmp`) whose tie-break among
  equal keys is implementation-defined; the heap is modelled as the list of
  its elements, `heappush` appending and `heappop` removing the first element
  with minimal key.  None of the claims depends on the tie-break order.
-/

namespace Tracegen

/-! ### Numeric helpers (utils.h / libc) -/

/-- Embedding of C `llround` on the exact rationals: round to the nearest
integer, halfway cases away from zero (Mathlib's `round` rounds halfway cases
up, so the negative case is negated). -/
def llround (q : ℚ) : ℤ :=
  if 0 ≤ q then round q else -(round (-q))

/-- Embedding of `normalise_vec` (utils.h): divide every weight by the sum of
the weights. -/
def normalise_vec (ws : List ℚ) : List ℚ :=
  ws.map (fun w => w / ws.sum)

/-! ### Interval tables (`get_intervals`, tracegen-utils.h:19 / tracegen.cc:17) -/

/-- Embedding of `get_intervals(classes, max)`: for `i = 1..classes`, the
closed integer interval `[(i-1)*width, min (i*width - 1) (max-1)]` with
`width = max / classes` (C integer division, i.e. truncated). -/
def get_intervals (classes mx : ℤ) : List (ℤ × ℤ) :=
  let width := mx.tdiv classes
  (List.range classes.toNat).map (fun (j : ℕ) =>
    let i : ℤ := (j : ℤ) + 1
    ((i - 1) * width, min (i * width - 1) (mx - 1)))

/-- Second stage of the zipf/pareto two-stage draw (`ivs[idx](rng)`): a
uniform integer draw inside interval `idx = (lo, hi)` of the table, modelled
as `lo + u % (hi - lo + 1)` for the raw oracle value `u`, which realises
exactly the values of `[lo, hi]`.  An out-of-range index never occurs in the
source (the discrete distribution has exactly as many weights as there are
intervals). -/
def interval_sample (ivs : List (ℤ × ℤ)) (idx : ℕ) (u : ℤ) : ℤ :=
  (ivs.getD idx (0, 0)).1 +
    u % ((ivs.getD idx (0, 0)).2 - (ivs.getD idx (0, 0)).1 + 1)

/-- Embedding of the sampler returned by `zipf_dist(alpha, classes, max)`:
the class index `idx` is the draw of the discrete distribution over the
normalized weights `1/i^alpha` (abstracted as an oracle, in range by
construction of `std::discrete_distribution`), then a uniform draw inside
that class's interval. -/
def zipf_sample (alpha : ℚ) (classes mx : ℤ) (idx : ℕ) (u : ℤ) : ℤ :=
  interval_sample (get_intervals classes mx) idx u

/-- Embedding of the sampler returned by `pareto_dist(xm, alpha, classes,
max)`: identical two-stage mechanism as `zipf_sample`, the weights being
`(xm/i)^alpha`. -/
def pareto_sample (xm alpha : ℚ) (classes mx : ℤ) (idx : ℕ) (u : ℤ) : ℤ :=
  interval_sample (get_intervals classes mx) idx u

/-! ### Popularity-mode non-canonical spec (`parse_irm`, tracegen-utils.h:192) -/

/-- Embedding of the sampler built by `parse_irm` for a colon-free spec with
`pop_mode = true`: normalise the parsed weights, let the discrete
distribution choose an index (oracle `idx`), and return the selected
normalized weight in fixed point, `llround(vals[idx] * 10000)`. -/
def pop_mode_sample (ws : List ℚ) (idx : ℕ) : ℤ :=
  let vals := normalise_vec ws
  llround (vals.getD idx 0 * 10000)

/-! ### The scheduling heap (tracegen.cc:117-142, 2d-tracegen.cc:11-28,
kd-tracegen.cc:11-31) -/

/-- Schedule entry of the blended generators (`struct tadr`). -/
structure Tadr where
  ird : ℤ
  addr : ℤ
deriving Repr, DecidableEq

/-- Schedule entry of the grouped generator (`struct group_tadr`). -/
structure GTadr where
  ird : ℤ
  addr : ℤ
  group : ℤ
deriving Repr, DecidableEq

/-- Helper for `heappop` on a non-empty heap `t :: ts`: the first minimal
element together with the remaining elements in order. -/
def popMin {α : Type} (key : α → ℤ) (t : α) : List α → α × List α
  | [] => (t, [])
  | t' :: ts =>
    if key t ≤ key (popMin key t' ts).1 then (t, t' :: ts)
    else ((popMin key t' ts).1, t :: (popMin key t' ts).2)

/-- Embedding of `heappop`: remove and return a minimum-key element (the
first one, standing for the implementation-defined tie-break of
`std::pop_heap`); popping an empty heap is undefined behaviour and yields
`none`. -/
def heappop {α : Type} (key : α → ℤ) : List α → Option (α × List α)
  | [] => none
  | t :: ts => some (popMin key t ts)

/-- Embedding of `heappush` (`push_back` + `push_heap`): the heap's element
list gains exactly the pushed element. -/
def heappush {α : Type} (heap : List α) (x : α) : List α :=
  heap ++ [x]

/-! ### Blended single-group generator (`gen_addresses`, tracegen.cc:154-188;
`td_gen`, 2d-tracegen.cc:30-51, is line-for-line the same algorithm) -/

/-- State of the blended generator: the heap, the trace produced so far, and
the call counts of the IRD and IRM samplers (indices into their oracle
streams). -/
structure GenState where
  heap : List Tadr
  trace : List ℤ
  nIrd : ℕ
  nIrm : ℕ
deriving Repr, DecidableEq

/-- Setup of `gen_addresses`/`td_gen`: one entry per address `a ∈ [0, addrs)`
with `ird = d_ird(rng)`, then `make_heap`. -/
def blendedSetup (addrs : ℤ) (irdS : ℕ → ℤ) : GenState :=
  { heap := (List.range addrs.toNat).map (fun a => { ird := irdS a, addr := (a : ℤ) })
    trace := []
    nIrd := addrs.toNat
    nIrm := 0 }

/-- One iteration of the main loop of `gen_addresses`/`td_gen`, given the
uniform-real draw `u` of this step.  If `u < p_irm`, draw from the IRM
distribution, `assert(addr < addrs)` (note: no lower bound is checked), and
emit the draw without touching the heap.  Otherwise draw from the IRD
distribution, `assert(0 <= ird_sample < addrs)`, pop the minimum entry, emit
its address and push it back with the increment added. -/
def blendedStep (addrs : ℤ) (pIrm : ℚ) (irdS irmS : ℕ → ℤ) (u : ℚ)
    (s : GenState) : Option GenState :=
  if u < pIrm then
    if irmS s.nIrm < addrs then
      some { s with trace := s.trace ++ [irmS s.nIrm], nIrm := s.nIrm + 1 }
    else none
  else
    if 0 ≤ irdS s.nIrd ∧ irdS s.nIrd < addrs then
      (heappop Tadr.ird s.heap).map (fun mr =>
        { heap := heappush mr.2 { ird := mr.1.ird + irdS s.nIrd, addr := mr.1.addr }
          trace := s.trace ++ [mr.1.addr]
          nIrd := s.nIrd + 1
          nIrm := s.nIrm })
    else none

/-- The first `n` iterations of the main loop of `gen_addresses`/`td_gen`,
starting from the setup state; step `i` consumes `uS i` as its
`d_is_irm(rng)` draw. -/
def blendedSteps (addrs : ℤ) (pIrm : ℚ) (irdS irmS : ℕ → ℤ) (uS : ℕ → ℚ) :
    ℕ → Option GenState
  | 0 => some (blendedSetup addrs irdS)
  | n + 1 => (blendedSteps addrs pIrm irdS irmS uS n).bind
      (blendedStep addrs pIrm irdS irmS (uS n))

/-- Embedding of `gen_addresses(addrs, length, p_irm, d_ird, d_irm, rng)`
(and of the identical `td_gen`): run `length` loop iterations (a non-positive
`length` runs the loop zero times, as with a C `for` loop) and return the
trace, or `none` on a fatal abort. -/
def gen_addresses (addrs length : ℤ) (pIrm : ℚ) (irdS irmS : ℕ → ℤ)
    (uS : ℕ → ℚ) : Option (List ℤ) :=
  (blendedSteps addrs pIrm irdS irmS uS length.toNat).map GenState.trace

/-! ### Grouped generator (`kd_gen`, kd-tracegen.cc:46-81) -/

/-- State of the grouped generator. -/
structure KdState where
  heap : List GTadr
  trace : List ℤ
  nIrd : ℕ
deriving Repr, DecidableEq

/-- Embedding of the IRD scaling of `kd_gen`: `scaled = raw` if the group's
popularity weight is zero, else `raw / pop`, then `llround`, then clamp
negative results to zero. -/
def kdScale (raw : ℤ) (popg : ℚ) : ℤ :=
  let scaled : ℚ := if popg = 0 then (raw : ℚ) else (raw : ℚ) / popg
  let r := llround scaled
  if r < 0 then 0 else r

/-- Embedding of `i64 group_size = addrs / groups` (C truncated division). -/
def kdGroupSize (addrs groups : ℤ) : ℤ :=
  addrs.tdiv groups

/-- The group assignment of `kd_gen` for address `a`: `group = a /
group_size`, clamped to `groups - 1`.  When `group_size` is zero the source
performs an integer division by zero (undefined behaviour), modelled as
`none`. -/
def kdAssignGroup (addrs groups a : ℤ) : Option ℤ :=
  if kdGroupSize addrs groups = 0 then none
  else
    let g := a.tdiv (kdGroupSize addrs groups)
    some (if groups ≤ g then groups - 1 else g)

/-- Setup body of `kd_gen` for one address `a`: assign the group, draw the
raw IRD, scale and clamp it, and push the entry. -/
def kdInitAddr (addrs groups : ℤ) (pop : List ℚ) (irdS : ℕ → ℤ) (a : ℕ)
    (s : KdState) : Option KdState :=
  (kdAssignGroup addrs groups (a : ℤ)).map (fun g =>
    { heap := heappush s.heap
        { ird := kdScale (irdS s.nIrd) (pop.getD g.toNat 0)
          addr := (a : ℤ)
          group := g }
      trace := s.trace
      nIrd := s.nIrd + 1 })

/-- Setup of `kd_gen` restricted to the first `n` addresses (`n = addrs` in
the source).  `groups = 0` makes the initial `addrs / groups` itself an
integer division by zero, hence `none`. -/
def kdSetupN (addrs groups : ℤ) (pop : List ℚ) (irdS : ℕ → ℤ) :
    ℕ → Option KdState
  | 0 => if groups = 0 then none else some { heap := [], trace := [], nIrd := 0 }
  | n + 1 => (kdSetupN addrs groups pop irdS n).bind
      (kdInitAddr addrs groups pop irdS n)

/-- One iteration of the main loop of `kd_gen`: pop the global minimum, emit
its address, draw a raw IRD from its group's distribution, scale and clamp,
and push the entry back with the increment added.  No range check is made on
the draw. -/
def kdStep (pop : List ℚ) (irdS : ℕ → ℤ) (s : KdState) : Option KdState :=
  (heappop GTadr.ird s.heap).map (fun er =>
    { heap := heappush er.2
        { ird := er.1.ird + kdScale (irdS s.nIrd) (pop.getD er.1.group.toNat 0)
          addr := er.1.addr
          group := er.1.group }
      trace := s.trace ++ [er.1.addr]
      nIrd := s.nIrd + 1 })

/-- Setup of `kd_gen` followed by its first `n` loop iterations. -/
def kdSteps (addrs groups : ℤ) (pop : List ℚ) (irdS : ℕ → ℤ) :
    ℕ → Option KdState
  | 0 => kdSetupN addrs groups pop irdS addrs.toNat
  | n + 1 => (kdSteps addrs groups pop irdS n).bind (kdStep pop irdS)

/-- Embedding of `kd_gen(addrs, length, irds, pop, rng)`: `groups` stands for
`irds.size()`, and the per-group IRD samplers are abstracted into the single
oracle stream `irdS` indexed by global call order. -/
def kd_gen (addrs length groups : ℤ) (pop : List ℚ) (irdS : ℕ → ℤ) :
    Option (List ℤ) :=
  (kdSteps addrs groups pop irdS length.toNat).map KdState.trace

/-! ### Heap lemmas -/

theorem popMin_length {α : Type} (key : α → ℤ) (t : α) :
    ∀ ts : List α, (popMin key t ts).2.length = ts.length := by
  intro ts
  induction ts generalizing t with
  | nil => rfl
  | cons t' ts ih =>
    simp only [popMin]
    split
    · rfl
    · simp [ih t']

theorem heappop_eq_none {α : Type} (key : α → ℤ) (l : List α) :
    heappop key l = none ↔ l = [] := by
  cases l <;> simp [heappop]

theorem heappop_length {α : Type} (key : α → ℤ) {l : List α} {m : α}
    {rest : List α} (h : heappop key l = some (m, rest)) :
    rest.length + 1 = l.length := by
  cases l with
  | nil => simp [heappop] at h
  | cons t ts =>
    simp only [heappop, Option.some.injEq] at h
    have := popMin_length key t ts
    rw [h] at this
    simp [this]

@[simp] theorem heappush_length {α : Type} (heap : List α) (x : α) :
    (heappush heap x).length = heap.length + 1 := by
  simp [heappush]

/-! ### Heap-size preservation lemmas -/

theorem blendedSetup_heap_length (addrs : ℤ) (irdS : ℕ → ℤ) :
    (blendedSetup addrs irdS).heap.length = addrs.toNat := by
  simp [blendedSetup]

theorem blendedStep_heap_length {addrs : ℤ} {pIrm : ℚ} {irdS irmS : ℕ → ℤ}
    {u : ℚ} {s s' : GenState}
    (h : blendedStep addrs pIrm irdS irmS u s = some s') :
    s'.heap.length = s.heap.length := by
  unfold blendedStep at h
  split at h
  · split at h
    · cases h; rfl
    · exact absurd h (by simp)
  · split at h
    · rw [Option.map_eq_some'] at h
      obtain ⟨⟨m, rest⟩, hp, h⟩ := h
      subst h
      have := heappop_length Tadr.ird hp
      simp only [heappush_length]
      omega
    · exact absurd h (by simp)

theorem blendedSteps_heap_length {addrs : ℤ} {pIrm : ℚ} {irdS irmS : ℕ → ℤ}
    {uS : ℕ → ℚ} :
    ∀ {n : ℕ} {s : GenState},
      blendedSteps addrs pIrm irdS irmS uS n = some s →
      s.heap.length = addrs.toNat := by
  intro n
  induction n with
  | zero =>
    intro s h
    simp only [blendedSteps] at h
    cases h
    exact blendedSetup_heap_length addrs irdS
  | succ n ih =>
    intro s h
    simp only [blendedSteps, Option.bind_eq_some] at h
    obtain ⟨s0, h0, hstep⟩ := h
    rw [blendedStep_heap_length hstep]
    exact ih h0

theorem kdInitAddr_heap_length {addrs groups : ℤ} {pop : List ℚ}
    {irdS : ℕ → ℤ} {a : ℕ} {s s' : KdState}
    (h : kdInitAddr addrs groups pop irdS a s = some s') :
    s'.heap.length = s.heap.length + 1 := by
  unfold kdInitAddr at h
  rw [Option.map_eq_some'] at h
  obtain ⟨g, hg, h⟩ := h
  subst h
  simp

theorem kdSetupN_heap_length {addrs groups : ℤ} {pop : List ℚ}
    {irdS : ℕ → ℤ} :
    ∀ {n : ℕ} {s : KdState},
      kdSetupN addrs groups pop irdS n = some s → s.heap.length = n := by
  intro n
  induction n with
  | zero =>
    intro s h
    simp only [kdSetupN] at h
    split at h
    · exact absurd h (by simp)
    · cases h; rfl
  | succ n ih =>
    intro s h
    simp only [kdSetupN, Option.bind_eq_some] at h
    obtain ⟨s0, h0, hinit⟩ := h
    rw [kdInitAddr_heap_length hinit, ih h0]

theorem kdStep_heap_length {pop : List ℚ} {irdS : ℕ → ℤ} {s s' : KdState}
    (h : kdStep pop irdS s = some s') :
    s'.heap.length = s.heap.length := by
  unfold kdStep at h
  rw [Option.map_eq_some'] at h
  obtain ⟨⟨e, rest⟩, hp, h⟩ := h
  subst h
  have := heappop_length GTadr.ird hp
  simp only [heappush_length]
  omega

theorem kdSteps_heap_length {addrs groups : ℤ} {pop : List ℚ}
    {irdS : ℕ → ℤ} :
    ∀ {n : ℕ} {s : KdState},
      kdSteps addrs groups pop irdS n = some s →
      s.heap.length = addrs.toNat := by
  intro n
  induction n with
  | zero =>
    intro s h
    simp only [kdSteps] at h
    exact kdSetupN_heap_length h
  | succ n ih =>
    intro s h
    simp only [kdSteps, Option.bind_eq_some] at h
    obtain ⟨s0, h0, hstep⟩ := h
    rw [kdStep_heap_length hstep]
    exact ih h0

/-! ### Interval-table lemmas (claim C1) -/

theorem get_intervals_length (classes mx : ℤ) :
    (get_intervals classes mx).length = classes.toNat := by
  simp [get_intervals]

theorem width_pos {classes mx : ℤ} (hc : 0 < classes) (hcm : classes ≤ mx) :
    1 ≤ mx.tdiv classes := by
  rw [Int.tdiv_eq_ediv (by omega) (by omega)]
  rw [Int.le_ediv_iff_mul_le hc]
  omega

theorem width_mul_le {classes mx : ℤ} (hc : 0 < classes) (hcm : classes ≤ mx) :
    classes * mx.tdiv classes ≤ mx := by
  rw [Int.tdiv_eq_ediv (by omega) (by omega)]
  have h1 := Int.ediv_add_emod mx classes
  have h2 := Int.emod_nonneg mx (by omega : classes ≠ 0)
  linarith

theorem get_intervals_get? {classes mx : ℤ} (hc : 0 < classes)
    (hcm : classes ≤ mx) {j : ℕ} (hj : j < classes.toNat) :
    (get_intervals classes mx).get? j =
      some ((j : ℤ) * mx.tdiv classes, ((j : ℤ) + 1) * mx.tdiv classes - 1) := by
  have hjc : (j : ℤ) + 1 ≤ classes := by
    have := Int.lt_toNat.mp hj
    omega
  have hwnn : (0 : ℤ) ≤ mx.tdiv classes := by
    have := width_pos hc hcm
    omega
  have hmin : ((j : ℤ) + 1) * mx.tdiv classes - 1 ≤ mx - 1 := by
    have h1 : ((j : ℤ) + 1) * mx.tdiv classes ≤ classes * mx.tdiv classes :=
      mul_le_mul_of_nonneg_right hjc hwnn
    have h2 := width_mul_le hc hcm
    linarith
  simp only [get_intervals, List.get?_map, List.get?_range hj, Option.map_some']
  rw [min_eq_left hmin]
  norm_num

theorem get_intervals_cover {classes mx : ℤ} (hc : 0 < classes)
    (hcm : classes ≤ mx) (x : ℤ) :
    (∃ p ∈ get_intervals classes mx, p.1 ≤ x ∧ x ≤ p.2) ↔
      0 ≤ x ∧ x < classes * mx.tdiv classes := by
  have hw := width_pos hc hcm
  have hwnn : (0 : ℤ) ≤ mx.tdiv classes := by omega
  constructor
  · rintro ⟨p, hp, hx1, hx2⟩
    simp only [get_intervals, List.mem_map, List.mem_range] at hp
    obtain ⟨j, hj, rfl⟩ := hp
    have hjc : (j : ℤ) + 1 ≤ classes := by
      have := Int.lt_toNat.mp hj
      omega
    have hjw : (0 : ℤ) ≤ (j : ℤ) * mx.tdiv classes :=
      mul_nonneg (Int.ofNat_nonneg j) hwnn
    have hcw : ((j : ℤ) + 1) * mx.tdiv classes ≤ classes * mx.tdiv classes :=
      mul_le_mul_of_nonneg_right hjc hwnn
    have hmin := min_le_left (((j : ℤ) + 1) * mx.tdiv classes - 1) (mx - 1)
    constructor
    · simp only at hx1
      linarith
    · simp only at hx2
      linarith
  · rintro ⟨hx0, hxlt⟩
    have hdivnn : 0 ≤ x / mx.tdiv classes := Int.ediv_nonneg hx0 hwnn
    have hdivlt : x / mx.tdiv classes < classes :=
      (Int.ediv_lt_iff_lt_mul (by omega)).mpr hxlt
    have hjcast : ((x / mx.tdiv classes).toNat : ℤ) = x / mx.tdiv classes :=
      Int.toNat_of_nonneg hdivnn
    have hjlt : (x / mx.tdiv classes).toNat < classes.toNat := by
      rw [Int.lt_toNat, hjcast]
      exact hdivlt
    have hmem :=
      List.get?_mem (get_intervals_get? hc hcm hjlt)
    refine ⟨_, hmem, ?_, ?_⟩
    · simp only [hjcast]
      have h1 := Int.ediv_add_emod x (mx.tdiv classes)
      have h2 := Int.emod_nonneg x (by omega : mx.tdiv classes ≠ 0)
      linarith
    · simp only [hjcast]
      have h1 := Int.ediv_add_emod x (mx.tdiv classes)
      have h2 := Int.emod_lt_of_pos x (by omega : 0 < mx.tdiv classes)
      linarith

theorem interval_sample_range {classes mx : ℤ} (hc : 0 < classes)
    (hcm : classes ≤ mx) {idx : ℕ} (hidx : idx < classes.toNat) (u : ℤ) :
    0 ≤ interval_sample (get_intervals classes mx) idx u ∧
      interval_sample (get_intervals classes mx) idx u < mx := by
  have hw := width_pos hc hcm
  have hwnn : (0 : ℤ) ≤ mx.tdiv classes := by omega
  have hget := get_intervals_get? hc hcm hidx
  have hgetD : (get_intervals classes mx).getD idx (0, 0) =
      ((idx : ℤ) * mx.tdiv classes, ((idx : ℤ) + 1) * mx.tdiv classes - 1) := by
    rw [List.getD_eq_get?, hget]
    rfl
  unfold interval_sample
  rw [hgetD]
  have hmod : ((idx : ℤ) + 1) * mx.tdiv classes - 1 - (idx : ℤ) * mx.tdiv classes + 1 =
      mx.tdiv classes := by ring
  simp only
  rw [hmod]
  have h1 : 0 ≤ u % mx.tdiv classes := Int.emod_nonneg u (by omega)
  have h2 : u % mx.tdiv classes < mx.tdiv classes :=
    Int.emod_lt_of_pos u (by omega)
  have hjc : (idx : ℤ) + 1 ≤ classes := by
    have := Int.lt_toNat.mp hidx
    omega
  have hjw : (0 : ℤ) ≤ (idx : ℤ) * mx.tdiv classes :=
    mul_nonneg (Int.ofNat_nonneg idx) hwnn
  have hcw : ((idx : ℤ) + 1) * mx.tdiv classes ≤ classes * mx.tdiv classes :=
    mul_le_mul_of_nonneg_right hjc hwnn
  have hmle := width_mul_le hc hcm
  constructor
  · linarith
  · linarith

/-! ### Claim C1 -/

/-- C1 counterexample: for zipf/pareto with `classes = 2`, `max = 5`
(`0 < classes ≤ max`) the interval table is `[(0,1), (2,3)]`: the last
interval ends at `3`, not at `max - 1 = 4`, it does not absorb the remainder,
and address `4 ∈ [0, 5)` lies in no interval — the union of the intervals
does not cover `[0, max)`. -/
theorem interval_table_counterexample :
    get_intervals 2 5 = [(0, 1), (2, 3)] ∧
    ¬(∃ p ∈ get_intervals 2 5, p.1 ≤ 4 ∧ 4 ≤ p.2) := by
  decide

/-- C1 (amended): for `0 < classes ≤ max`, the interval table consists of
`classes` contiguous subintervals, each of exact width `w = max / classes`
(truncated division): the `j`-th interval is `[j*w, (j+1)*w - 1]`, so the
last interval ends at `classes*w - 1 ≤ max - 1` (it does not absorb the
remainder), and the union of the intervals is exactly `[0, classes*w)`,
which is all of `[0, max)` only when `classes` divides `max`.  Each
zipf/pareto draw picks a class by the normalised power-law weights (the
in-range index of the discrete distribution) and then draws uniformly inside
that class's interval; every draw lies in `[0, max)`. -/
theorem interval_table_spec (classes mx : ℤ) (hc : 0 < classes)
    (hcm : classes ≤ mx) :
    (get_intervals classes mx).length = classes.toNat ∧
    (∀ j : ℕ, j < classes.toNat →
      (get_intervals classes mx).get? j =
        some ((j : ℤ) * mx.tdiv classes, ((j : ℤ) + 1) * mx.tdiv classes - 1)) ∧
    classes * mx.tdiv classes ≤ mx ∧
    (∀ x : ℤ,
      (∃ p ∈ get_intervals classes mx, p.1 ≤ x ∧ x ≤ p.2) ↔
        0 ≤ x ∧ x < classes * mx.tdiv classes) ∧
    (∀ (alpha : ℚ) (idx : ℕ) (u : ℤ), idx < classes.toNat →
      0 ≤ zipf_sample alpha classes mx idx u ∧
        zipf_sample alpha classes mx idx u < mx) ∧
    (∀ (xm alpha : ℚ) (idx : ℕ) (u : ℤ), idx < classes.toNat →
      0 ≤ pareto_sample xm alpha classes mx idx u ∧
        pareto_sample xm alpha classes mx idx u < mx) :=
  ⟨get_intervals_length classes mx,
   fun _ hj => get_intervals_get? hc hcm hj,
   width_mul_le hc hcm,
   fun x => get_intervals_cover hc hcm x,
   fun _ _ u hidx => interval_sample_range hc hcm hidx u,
   fun _ _ _ u hidx => interval_sample_range hc hcm hidx u⟩

/-- Witness for `interval_table_spec` at `classes = 3`, `max = 7`
(`w = 2`): three intervals, the second being `[2, 3]`, and a zipf draw in
class `2` with raw oracle value `11` lies in `[0, 7)`. -/
theorem interval_table_spec_witness :
    ((0 : ℤ) < 3 ∧ (3 : ℤ) ≤ 7) ∧
    (get_intervals 3 7).length = (3 : ℤ).toNat ∧
    (get_intervals 3 7).get? 1 =
      some ((1 : ℤ) * (7 : ℤ).tdiv 3, ((1 : ℤ) + 1) * (7 : ℤ).tdiv 3 - 1) ∧
    (0 ≤ zipf_sample 1 3 7 2 11 ∧ zipf_sample 1 3 7 2 11 < 7) :=
  ⟨⟨by decide, by decide⟩,
   (interval_table_spec 3 7 (by decide) (by decide)).1,
   (interval_table_spec 3 7 (by decide) (by decide)).2.1 1 (by decide),
   (interval_table_spec 3 7 (by decide) (by decide)).2.2.2.2.1 1 2 11 (by decide)⟩

/-! ### Claim C2 -/

/-- C2: in both scheduler modes (blended single-group and grouped), for every
address count `N > 0`, every mixing probability, every stream and every
number `n` of generation steps (including `n = 0`, i.e. right after setup):
whenever setup and the first `n` steps complete without a fatal abort, the
scheduling heap holds exactly `N` entries — no step adds or removes a net
entry. -/
theorem heap_size_invariant (addrs : ℤ) (hpos : 0 < addrs) :
    (∀ (pIrm : ℚ) (irdS irmS : ℕ → ℤ) (uS : ℕ → ℚ) (n : ℕ) (s : GenState),
      blendedSteps addrs pIrm irdS irmS uS n = some s →
      s.heap.length = addrs.toNat) ∧
    (∀ (groups : ℤ) (pop : List ℚ) (irdS : ℕ → ℤ) (n : ℕ) (s : KdState),
      kdSteps addrs groups pop irdS n = some s →
      s.heap.length = addrs.toNat) :=
  ⟨fun _ _ _ _ _ _ h => blendedSteps_heap_length h,
   fun _ _ _ _ _ h => kdSteps_heap_length h⟩

/-- Witness for `heap_size_invariant` at `N = 2` after one step of each
mode. -/
theorem heap_size_invariant_witness :
    (0 : ℤ) < 2 ∧
    (GenState.mk [⟨0, 1⟩, ⟨0, 0⟩] [0] 3 0).heap.length = (2 : ℤ).toNat ∧
    (KdState.mk [⟨0, 1, 0⟩, ⟨0, 0, 0⟩] [0] 3).heap.length = (2 : ℤ).toNat :=
  ⟨by decide,
   (heap_size_invariant 2 (by decide)).1 0 (fun _ => 0) (fun _ => 0)
     (fun _ => 0) 1 (GenState.mk [⟨0, 1⟩, ⟨0, 0⟩] [0] 3 0) (by decide),
   (heap_size_invariant 2 (by decide)).2 1 [1] (fun _ => 0) 1
     (KdState.mk [⟨0, 1, 0⟩, ⟨0, 0, 0⟩] [0] 3)
     (by norm_num [kdSteps, kdSetupN, kdInitAddr, kdAssignGroup, kdGroupSize,
       kdScale, llround, round_eq, kdStep, heappop, popMin, heappush,
       show Int.tdiv 1 2 = 0 from by decide, show Int.tdiv 0 2 = 0 from by decide,
       show Int.tdiv 2 1 = 2 from by decide])⟩

/-! ### Claim C7 -/

/-- C7: with `addresses = 4` and `length = 0`, for every mixing probability
and every random stream, generation returns an empty trace and signals no
error: the main loop runs zero times and zero trace entries are produced. -/
theorem zero_length_empty_trace (pIrm : ℚ) (irdS irmS : ℕ → ℤ)
    (uS : ℕ → ℚ) :
    gen_addresses 4 0 pIrm irdS irmS uS = some [] := rfl

/-! ### Claim C3 -/

/-- C3: in blended mode with `p_irm = 1`, since every uniform-real draw
satisfies `u < 1` (the draws of `std::uniform_real_distribution(0, 1)` lie in
`[0, 1)`), every step takes the IRM branch: whenever the first `n` steps
complete, the heap equals the heap immediately after initialization, the IRD
sampler has not been called again since setup, and every emitted address is
the corresponding direct IRM draw. -/
theorem pure_irm_heap_untouched (addrs : ℤ) (irdS irmS : ℕ → ℤ)
    (uS : ℕ → ℚ) (hu : ∀ i, uS i < 1) :
    ∀ (n : ℕ) (s : GenState),
      blendedSteps addrs 1 irdS irmS uS n = some s →
      s.heap = (blendedSetup addrs irdS).heap ∧
      s.trace = (List.range n).map irmS ∧
      s.nIrd = (blendedSetup addrs irdS).nIrd ∧
      s.nIrm = n := by
  intro n
  induction n with
  | zero =>
    intro s h
    simp only [blendedSteps] at h
    cases h
    exact ⟨rfl, rfl, rfl, rfl⟩
  | succ n ih =>
    intro s h
    simp only [blendedSteps, Option.bind_eq_some] at h
    obtain ⟨s0, h0, hstep⟩ := h
    obtain ⟨hheap, htrace, hnird, hnirm⟩ := ih s0 h0
    unfold blendedStep at hstep
    rw [if_pos (hu n)] at hstep
    split at hstep
    · cases hstep
      refine ⟨hheap, ?_, hnird, by simp [hnirm]⟩
      simp [htrace, hnirm, List.range_succ]
    · exact absurd hstep (by simp)

/-- Witness for `pure_irm_heap_untouched`: `N = 2`, one step, constant-zero
streams; the resulting state keeps the setup heap and the trace is the one
IRM draw. -/
theorem pure_irm_heap_untouched_witness :
    (GenState.mk [⟨0, 0⟩, ⟨0, 1⟩] [0] 2 1).heap =
      (blendedSetup 2 (fun _ => 0)).heap ∧
    (GenState.mk [⟨0, 0⟩, ⟨0, 1⟩] [0] 2 1).trace =
      (List.range 1).map (fun _ => (0 : ℤ)) ∧
    (GenState.mk [⟨0, 0⟩, ⟨0, 1⟩] [0] 2 1).nIrd =
      (blendedSetup 2 (fun _ => 0)).nIrd ∧
    (GenState.mk [⟨0, 0⟩, ⟨0, 1⟩] [0] 2 1).nIrm = 1 :=
  pure_irm_heap_untouched 2 (fun _ => 0) (fun _ => 0) (fun _ => 0)
    (fun _ => by norm_num) 1 (GenState.mk [⟨0, 0⟩, ⟨0, 1⟩] [0] 2 1) (by decide)

/-! ### Claim C4 -/

/-- C4 counterexample: with `addresses = 4` and `p_irm = 1`, an IRM draw of
`-1` — outside `[0, 4)` — is emitted into the trace unchanged and generation
succeeds: a negative out-of-range draw is not fatal. -/
theorem irm_negative_draw_emitted :
    gen_addresses 4 1 1 (fun _ => 0) (fun _ => -1) (fun _ => 0) = some [-1] ∧
    ((-1 : ℤ) < 0 ∨ (4 : ℤ) ≤ -1) := by
  constructor
  · decide
  · decide

/-- C4 (amended): in blended mode, a step taking the IRM branch checks only
`assert(addr < addrs)`: a draw `≥ addresses` aborts generation fatally at
that step — never clamped into range, never emitted — while a draw
`< addresses` (including any negative draw) passes the check and is emitted
unchanged, the heap untouched. -/
theorem irm_branch_range_check (addrs : ℤ) (pIrm : ℚ) (irdS irmS : ℕ → ℤ)
    (u : ℚ) (s : GenState) (hu : u < pIrm) :
    (addrs ≤ irmS s.nIrm → blendedStep addrs pIrm irdS irmS u s = none) ∧
    (irmS s.nIrm < addrs →
      blendedStep addrs pIrm irdS irmS u s =
        some { s with trace := s.trace ++ [irmS s.nIrm], nIrm := s.nIrm + 1 }) := by
  constructor
  · intro h
    simp [blendedStep, hu, not_lt.mpr h]
  · intro h
    simp [blendedStep, hu, h]

/-- Witness for `irm_branch_range_check`: with `addresses = 2` an IRM draw of
`5` aborts the step. -/
theorem irm_branch_range_check_witness :
    (0 : ℚ) < 1 ∧
    blendedStep 2 1 (fun _ => 0) (fun _ => 5) 0 (blendedSetup 2 (fun _ => 0)) =
      none :=
  ⟨by norm_num,
   (irm_branch_range_check 2 1 (fun _ => 0) (fun _ => 5) 0
     (blendedSetup 2 (fun _ => 0)) (by norm_num)).1 (by decide)⟩

/-! ### Claim C6 -/

/-- C6 counterexample: with `addresses = 0` and `length = 0` — both
non-positive — neither generator fails fast: both run their loops zero times
and return an empty trace with no error, so no positivity validation
exists. -/
theorem no_validation_counterexample :
    gen_addresses 0 0 1 (fun _ => 0) (fun _ => 0) (fun _ => 0) = some [] ∧
    kd_gen 0 0 1 [] (fun _ => 0) = some [] :=
  ⟨rfl, rfl⟩

/-- C6 (amended): the program performs no validation of `length > 0` or
`addresses > 0` before the main loop: for every non-positive `length` and
`addresses`, both generators complete without signalling any error,
producing an empty trace — the C `for` loops simply run zero times.  (For
`kd_gen`, `groups ≠ 0` is additionally assumed, since `groups = 0` makes the
initial `addrs / groups` an integer division by zero, which is likewise not
a validation.) -/
theorem no_positivity_validation (addrs len groups : ℤ) (pIrm : ℚ)
    (irdS irmS : ℕ → ℤ) (uS : ℕ → ℚ) (pop : List ℚ)
    (ha : addrs ≤ 0) (hl : len ≤ 0) (hg : groups ≠ 0) :
    gen_addresses addrs len pIrm irdS irmS uS = some [] ∧
    kd_gen addrs len groups pop irdS = some [] := by
  have hlen : len.toNat = 0 := Int.toNat_of_nonpos hl
  have haddr : addrs.toNat = 0 := Int.toNat_of_nonpos ha
  refine ⟨?_, ?_⟩
  · simp [gen_addresses, hlen, blendedSteps, blendedSetup]
  · simp [kd_gen, hlen, kdSteps, haddr, kdSetupN, hg]

/-- Witness for `no_positivity_validation` at `addresses = -1`,
`length = -3`, `groups = 2`. -/
theorem no_positivity_validation_witness :
    ((-1 : ℤ) ≤ 0 ∧ (-3 : ℤ) ≤ 0 ∧ (2 : ℤ) ≠ 0) ∧
    gen_addresses (-1) (-3) 1 (fun _ => 0) (fun _ => 0) (fun _ => 0) =
      some [] ∧
    kd_gen (-1) (-3) 2 [] (fun _ => 0) = some [] :=
  ⟨⟨by decide, by decide, by decide⟩,
   (no_positivity_validation (-1) (-3) 2 1 (fun _ => 0) (fun _ => 0)
     (fun _ => 0) [] (by decide) (by decide) (by decide)).1,
   (no_positivity_validation (-1) (-3) 2 1 (fun _ => 0) (fun _ => 0)
     (fun _ => 0) [] (by decide) (by decide) (by decide)).2⟩

/-! ### Claim C10 -/

/-- C10: a blended-mode step that takes the schedule branch additionally
requires the freshly drawn IRD increment to lie in `[0, addresses)` and
aborts generation at that step otherwise, without rescheduling anything; the
grouped-mode step performs no such check: on a non-empty heap it always
succeeds, whatever the draw. -/
theorem schedule_branch_ird_range_check (addrs : ℤ) (pIrm : ℚ)
    (irdS irmS : ℕ → ℤ) (u : ℚ) (s : GenState) (pop : List ℚ)
    (irdT : ℕ → ℤ) (t : KdState)
    (hu : pIrm ≤ u) (hird : ¬(0 ≤ irdS s.nIrd ∧ irdS s.nIrd < addrs))
    (ht : t.heap ≠ []) :
    blendedStep addrs pIrm irdS irmS u s = none ∧
    ∃ t', kdStep pop irdT t = some t' := by
  constructor
  · simp [blendedStep, not_lt.mpr hu, hird]
  · rw [← Option.isSome_iff_exists]
    unfold kdStep
    cases hheap : t.heap with
    | nil => exact absurd hheap ht
    | cons e rest => rfl

/-- Witness for `schedule_branch_ird_range_check`: an IRD draw of `5` with
`addresses = 2` aborts the blended schedule branch, while a grouped step on a
one-entry heap succeeds with the same out-of-range draw. -/
theorem schedule_branch_ird_range_check_witness :
    blendedStep 2 0 (fun _ => 5) (fun _ => 0) 1 (blendedSetup 2 (fun _ => 5)) =
      none ∧
    ∃ t', kdStep [] (fun _ => 5) (KdState.mk [⟨0, 0, 0⟩] [] 0) = some t' :=
  schedule_branch_ird_range_check 2 0 (fun _ => 5) (fun _ => 0) 1
    (blendedSetup 2 (fun _ => 5)) [] (fun _ => 5)
    (KdState.mk [⟨0, 0, 0⟩] [] 0) (by norm_num) (by decide) (by decide)

/-! ### Scaling lemmas (claim C5) -/

theorem ite_neg_zero_eq_max (r : ℤ) : (if r < 0 then 0 else r) = max 0 r := by
  rcases lt_or_le r 0 with h | h
  · simp [h, max_eq_left h.le]
  · simp [not_lt.mpr h, max_eq_right h]

theorem kdScale_eq_spec (raw : ℤ) (popg : ℚ) :
    kdScale raw popg =
      max 0 (llround (if popg ≠ 0 then (raw : ℚ) / popg else (raw : ℚ))) := by
  simp only [kdScale]
  rw [ite_neg_zero_eq_max]
  by_cases h : popg = 0 <;> simp [h]

theorem kdScale_nonneg (raw : ℤ) (popg : ℚ) : 0 ≤ kdScale raw popg := by
  rw [kdScale_eq_spec]
  exact le_max_left 0 _

/-! ### Claim C5 -/

/-- C5: in grouped mode, both at setup (for every address `a` in group `g`)
and at every per-step reschedule of an entry of group `g`, the scheduling
increment is computed as `raw = sample(IRD[g])`, then `scaled = raw / pop[g]`
when `pop[g] ≠ 0` and `scaled = raw` when `pop[g] = 0`, then rounded to the
nearest integer (`llround`) and clamped to be non-negative; the rescheduled
entry keeps the same address and group, and its virtual time is the old
virtual time plus exactly this non-negative increment. -/
theorem kd_increment_spec (addrs groups : ℤ) (pop : List ℚ) (irdS : ℕ → ℤ) :
    (∀ (a : ℕ) (s s' : KdState),
      kdInitAddr addrs groups pop irdS a s = some s' →
      ∃ g : ℤ, kdAssignGroup addrs groups (a : ℤ) = some g ∧
        0 ≤ kdScale (irdS s.nIrd) (pop.getD g.toNat 0) ∧
        kdScale (irdS s.nIrd) (pop.getD g.toNat 0) =
          max 0 (llround (if pop.getD g.toNat 0 ≠ 0
            then (irdS s.nIrd : ℚ) / pop.getD g.toNat 0
            else (irdS s.nIrd : ℚ))) ∧
        s'.heap = s.heap ++
          [{ ird := kdScale (irdS s.nIrd) (pop.getD g.toNat 0),
             addr := (a : ℤ), group := g }] ∧
        s'.trace = s.trace) ∧
    (∀ (s s' : KdState),
      kdStep pop irdS s = some s' →
      ∃ (e : GTadr) (rest : List GTadr),
        heappop GTadr.ird s.heap = some (e, rest) ∧
        0 ≤ kdScale (irdS s.nIrd) (pop.getD e.group.toNat 0) ∧
        kdScale (irdS s.nIrd) (pop.getD e.group.toNat 0) =
          max 0 (llround (if pop.getD e.group.toNat 0 ≠ 0
            then (irdS s.nIrd : ℚ) / pop.getD e.group.toNat 0
            else (irdS s.nIrd : ℚ))) ∧
        s'.heap = rest ++
          [{ ird := e.ird + kdScale (irdS s.nIrd) (pop.getD e.group.toNat 0),
             addr := e.addr, group := e.group }] ∧
        s'.trace = s.trace ++ [e.addr]) := by
  constructor
  · intro a s s' h
    unfold kdInitAddr at h
    rw [Option.map_eq_some'] at h
    obtain ⟨g, hg, h⟩ := h
    subst h
    exact ⟨g, hg, kdScale_nonneg _ _, kdScale_eq_spec _ _, rfl, rfl⟩
  · intro s s' h
    unfold kdStep at h
    rw [Option.map_eq_some'] at h
    obtain ⟨⟨e, rest⟩, hp, h⟩ := h
    subst h
    exact ⟨e, rest, hp, kdScale_nonneg _ _, kdScale_eq_spec _ _, rfl, rfl⟩

/-- Witness for `kd_increment_spec`: a one-entry heap `{ird 5, addr 7,
group 0}` with `pop = [2]` and raw draw `3` reschedules to
`{ird 5 + 2, addr 7, group 0}` (increment `llround(3/2) = 2 ≥ 0`). -/
theorem kd_increment_spec_witness :
    ∃ (e : GTadr) (rest : List GTadr),
      heappop GTadr.ird (KdState.mk [⟨5, 7, 0⟩] [] 0).heap = some (e, rest) ∧
      0 ≤ kdScale ((fun _ => 3) (KdState.mk [⟨5, 7, 0⟩] [] 0).nIrd)
        (([2] : List ℚ).getD e.group.toNat 0) ∧
      kdScale ((fun _ => 3) (KdState.mk [⟨5, 7, 0⟩] [] 0).nIrd)
          (([2] : List ℚ).getD e.group.toNat 0) =
        max 0 (llround (if ([2] : List ℚ).getD e.group.toNat 0 ≠ 0
          then (((fun _ => 3) (KdState.mk [⟨5, 7, 0⟩] [] 0).nIrd : ℤ) : ℚ) /
            ([2] : List ℚ).getD e.group.toNat 0
          else (((fun _ => 3) (KdState.mk [⟨5, 7, 0⟩] [] 0).nIrd : ℤ) : ℚ))) ∧
      (KdState.mk [⟨7, 7, 0⟩] [7] 1).heap = rest ++
        [{ ird := e.ird + kdScale ((fun _ => 3) (KdState.mk [⟨5, 7, 0⟩] [] 0).nIrd)
             (([2] : List ℚ).getD e.group.toNat 0),
           addr := e.addr, group := e.group }] ∧
      (KdState.mk [⟨7, 7, 0⟩] [7] 1).trace =
        (KdState.mk [⟨5, 7, 0⟩] [] 0).trace ++ [e.addr] :=
  (kd_increment_spec 1 1 [2] (fun _ => 3)).2 (KdState.mk [⟨5, 7, 0⟩] [] 0)
    (KdState.mk [⟨7, 7, 0⟩] [7] 1)
    (by norm_num [kdStep, heappop, popMin, heappush, kdScale, llround, round_eq])

/-! ### Claim C8 -/

/-- C8: a non-canonical (colon-free, comma-separated) spec built in
popularity mode yields a sampler whose draw at discrete-choice index `idx`
equals `llround(w_idx * 10000)`, where `w_idx` is the `idx`-th weight after
normalisation to sum `1`: the returned value is the selected normalised
weight in fixed point with scale `10000`, rounded to nearest — not an
address. -/
theorem pop_mode_sample_spec (ws : List ℚ) (idx : ℕ)
    (hidx : idx < ws.length) (hsum : 0 < ws.sum) :
    pop_mode_sample ws idx = llround (ws.getD idx 0 / ws.sum * 10000) ∧
    (normalise_vec ws).sum = 1 := by
  have hmap : (List.map (fun w => w / ws.sum) ws).getD idx 0 =
      ws.getD idx 0 / ws.sum := by
    rw [List.getD_eq_get?, List.getD_eq_get?, List.get?_map]
    cases hq : ws.get? idx with
    | none =>
      rw [List.get?_eq_none] at hq
      exfalso
      omega
    | some v => simp
  constructor
  · simp only [pop_mode_sample, normalise_vec, hmap]
  · simp only [normalise_vec, div_eq_mul_inv]
    rw [List.sum_map_mul_right]
    simp only [List.map_id']
    exact mul_inv_cancel₀ hsum.ne'

/-- Witness for `pop_mode_sample_spec`: weights `2, 8` normalise to
`1/5, 4/5`; the draw at index `0` is `llround((2/10) * 10000) = 2000`. -/
theorem pop_mode_sample_spec_witness :
    ((0 : ℕ) < ([2, 8] : List ℚ).length ∧ (0 : ℚ) < ([2, 8] : List ℚ).sum) ∧
    pop_mode_sample [2, 8] 0 =
      llround (([2, 8] : List ℚ).getD 0 0 / ([2, 8] : List ℚ).sum * 10000) ∧
    (normalise_vec [2, 8]).sum = 1 :=
  ⟨⟨by decide, by norm_num⟩,
   (pop_mode_sample_spec [2, 8] 0 (by decide) (by norm_num)).1,
   (pop_mode_sample_spec [2, 8] 0 (by decide) (by norm_num)).2⟩

/-! ### Claim C9 -/

/-- C9: grouped generation's per-address group assignment is well-defined
only when `0 < groups ≤ addresses`: with `0 ≤ addresses < groups` the
divisor `addresses / groups` is zero, so assigning any address performs an
integer division by zero; with `0 < groups ≤ addresses`, every address
`0 ≤ a < addresses` receives a group index in `[0, groups)`. -/
theorem kd_group_assignment_welldef (addrs groups a : ℤ) :
    (0 ≤ addrs → addrs < groups →
      kdGroupSize addrs groups = 0 ∧ kdAssignGroup addrs groups a = none) ∧
    (0 < groups → groups ≤ addrs → 0 ≤ a → a < addrs →
      ∃ g : ℤ, kdAssignGroup addrs groups a = some g ∧ 0 ≤ g ∧ g < groups) := by
  constructor
  · intro h0 hlt
    have hg0 : kdGroupSize addrs groups = 0 := by
      unfold kdGroupSize
      rw [Int.tdiv_eq_ediv h0 (by omega)]
      exact Int.ediv_eq_zero_of_lt h0 hlt
    exact ⟨hg0, by simp [kdAssignGroup, hg0]⟩
  · intro hg hga ha0 halt
    have hsize : kdGroupSize addrs groups = addrs / groups := by
      unfold kdGroupSize
      exact Int.tdiv_eq_ediv (by omega) (by omega)
    have hsize1 : 1 ≤ kdGroupSize addrs groups := by
      rw [hsize, Int.le_ediv_iff_mul_le hg]
      omega
    have hq : a.tdiv (kdGroupSize addrs groups) =
        a / kdGroupSize addrs groups :=
      Int.tdiv_eq_ediv ha0 (by omega)
    have hqnn : 0 ≤ a / kdGroupSize addrs groups :=
      Int.ediv_nonneg ha0 (by omega)
    simp only [kdAssignGroup, if_neg (by omega : ¬kdGroupSize addrs groups = 0)]
    by_cases hcase : groups ≤ a.tdiv (kdGroupSize addrs groups)
    · exact ⟨groups - 1, by rw [if_pos hcase], by omega, by omega⟩
    · refine ⟨a.tdiv (kdGroupSize addrs groups), by rw [if_neg hcase], ?_, ?_⟩
      · rw [hq]
        exact hqnn
      · omega

/-- Witness for `kd_group_assignment_welldef`: with `addresses = 2 <
groups = 5` the divisor is zero and assignment is undefined; with
`addresses = 10`, `groups = 2`, address `7` lands in a group in `[0, 2)`. -/
theorem kd_group_assignment_welldef_witness :
    (kdGroupSize 2 5 = 0 ∧ kdAssignGroup 2 5 1 = none) ∧
    (∃ g : ℤ, kdAssignGroup 10 2 7 = some g ∧ 0 ≤ g ∧ g < 2) :=
  ⟨(kd_group_assignment_welldef 2 5 1).1 (by decide) (by decide),
   (kd_group_assignment_welldef 10 2 7).2 (by decide) (by decide) (by decide)
     (by decide)⟩

end Tracegen
